import Mathlib

/-!
Verification of the `eddsa-poseidon` crate of `zk-kit.rust`.

The only file under `src/` is `crates/eddsa-poseidon/src/lib.rs`.  It contains
the key-derivation helper `from_digest`, the public error enum `Error`, and the
test-module helpers `num_bits` and `non_native` (the cross-field re-encoder).
Those are embedded here directly from the source.  The signing / verification
protocol itself lives in `eddsa.rs` and `signature.rs`, which are not under
`src/`; where a claim needs them they are modelled from the specification
(`spec.md`) and marked `Modelled from the spec:` in their doc comments.

Conventions of the embedding:
* a prime field `F` is represented by its modulus `p : ℕ` together with its
  associated constant `MODULUS_BIT_SIZE` (written `B : ℕ`); the relation
  between the two is the decidable predicate `isBitSize`;
* the source element `x : F1` of `non_native` enters through its big-integer
  little-endian bit vector `to_bits_le`, whose length is the fixed limb width
  `L` of `F1`'s `BigInteger` (a multiple of 64 in arkworks);
* a Rust `panic!` (and a panicking slice index) is modelled as `Option.none`;
* `F::from_le_bytes_mod_order` (an external `ark_ff` collaborator, assumed
  correct by the spec) interprets a byte string little-endian and reduces
  modulo the modulus.
-/

namespace ZkKit

/-- Whether `B` is the bit length of `p`, i.e. `B = MODULUS_BIT_SIZE` for a
field of modulus `p` (arkworks' `MODULUS_BIT_SIZE` associated constant). -/
def isBitSize (B p : ℕ) : Prop := 2 ^ (B - 1) ≤ p ∧ p < 2 ^ B ∧ 1 ≤ B

instance (B p : ℕ) : Decidable (isBitSize B p) := by
  unfold isBitSize; infer_instance

/-- `FieldElementSize` from `ark_crypto_primitives::sponge`, the chunk-width
request type consumed by `non_native`. -/
inductive FieldElementSize
  | Full
  | Truncated (numBits : ℕ)
deriving DecidableEq, Repr

/-- The public error enum of the crate (src lib.rs lines 14-18): exactly the
two variants `Verify` and `BadDigestOutput`. -/
inductive Error
  | Verify
  | BadDigestOutput
deriving DecidableEq, Repr

/-- Little-endian value of a bit string: bit `i` contributes `2 ^ i`. -/
def natOfBitsLE : List Bool → ℕ
  | [] => 0
  | b :: rest => (if b then 1 else 0) + 2 * natOfBitsLE rest

/-- Little-endian value of a byte string: byte `i` contributes `bᵢ · 256 ^ i`. -/
def natOfBytesLE : List ℕ → ℕ
  | [] => 0
  | b :: rest => b + 256 * natOfBytesLE rest

/-- `from_digest` (src lib.rs lines 9-12): finalize the digest to a byte
string and apply `F::from_le_bytes_mod_order`, i.e. interpret the bytes
little-endian and reduce modulo the field modulus `p`. -/
def from_digest (p : ℕ) (bytes : List ℕ) : ℕ :=
  natOfBytesLE bytes % p

/-- `num_bits` (src lib.rs lines 69-76).  For a `Truncated` request the code
panics when the requested width exceeds `F::MODULUS_BIT_SIZE`; in every
non-panicking case it returns `(F::MODULUS_BIT_SIZE - 1)` — the `Truncated`
payload is otherwise ignored.  `none` models the panic. -/
def num_bits (B : ℕ) : FieldElementSize → Option ℕ
  | FieldElementSize.Truncated k => if k > B then none else some (B - 1)
  | FieldElementSize.Full => some (B - 1)

/-- The first loop of `non_native` (src lib.rs lines 87-90):
`total_bits += num_bits::<F2>(size)` over all sizes.  Its numeric result is
unused by the remaining code (the squeeze that consumed it is commented out);
its only observable effect is the panic of `num_bits`. -/
def totalBits (B : ℕ) : List FieldElementSize → Option ℕ
  | [] => some 0
  | sz :: rest =>
    match num_bits B sz, totalBits B rest with
    | some nb, some t => some (t + nb)
    | _, _ => none

/-- `x.into_bigint().to_bits_le()` (src lib.rs lines 94-95): the little-endian
bit vector of the `BigInteger` representation, of fixed length `L`
(64 times the limb count of `F1`'s `BigInteger`). -/
def bitsLE (L x : ℕ) : List Bool :=
  (List.range L).map x.testBit

/-- One byte of the inner closure of `non_native` (src lib.rs lines 106-114):
`byte += 1 << i` for every set bit `i` of a chunk of at most 8 bits. -/
def byteOfBits (bits : List Bool) : ℕ :=
  bits.enum.foldl (fun byte ib => if ib.2 then byte + 2 ^ ib.1 else byte) 0

/-- `nonnative_bits_le.chunks(8).map(...)` (src lib.rs lines 104-115): split
the bit string into chunks of 8 (last chunk possibly shorter) and form one
byte from each. -/
def bitsToBytesLE : List Bool → List ℕ
  | [] => []
  | b0 :: b1 :: b2 :: b3 :: b4 :: b5 :: b6 :: b7 :: rest =>
      byteOfBits [b0, b1, b2, b3, b4, b5, b6, b7] :: bitsToBytesLE rest
  | l => [byteOfBits l]

/-- The second loop of `non_native` (src lib.rs lines 99-118).  For each size,
`num_bits::<F2>` gives `nb`; the slice `bits_window[..nb + 2]` panics (`none`)
when fewer than `nb + 2` bits remain; otherwise its bytes go through
`F2::from_le_bytes_mod_order` and the window advances by `nb` bits. -/
def nonNativeLoop (B p2 : ℕ) : List FieldElementSize → List Bool → Option (List ℕ)
  | [], _ => some []
  | sz :: rest, window =>
    match num_bits B sz with
    | none => none
    | some nb =>
      if nb + 2 ≤ window.length then
        match nonNativeLoop B p2 rest (window.drop nb) with
        | none => none
        | some out =>
            some ((natOfBytesLE (bitsToBytesLE (window.take (nb + 2))) % p2) :: out)
      else none

/-- `non_native` (src lib.rs lines 78-121).  The sponge argument of type `S`
is received but never read nor written (the squeeze is commented out in the
source), so it is returned unchanged next to the output.  `L` and `x` stand
for the source element of `F1`, `B` and `p2` for `F2`'s `MODULUS_BIT_SIZE`
and modulus.  `none` models a panic. -/
def non_native {S : Type} (sponge : S) (L x B p2 : ℕ)
    (sizes : List FieldElementSize) : S × Option (List ℕ) :=
  (sponge,
    if sizes.length = 0 then some []
    else
      match totalBits B sizes with
      | none => none
      | some _ => nonNativeLoop B p2 sizes (bitsLE L x))

/-- The re-encoder exactly as the specification words it (spec.md §4.3 and
claim C4): the i-th chunk is read at the offset equal to the sum of the
preceding requested widths, spans the requested width plus 2 margin bits, and
is reduced modulo `F2`'s modulus.  Stated for comparison with `non_native`. -/
def specReencodeLoop (p2 : ℕ) : List Bool → List ℕ → List ℕ
  | _, [] => []
  | window, w :: rest =>
      (natOfBitsLE (window.take (w + 2)) % p2) :: specReencodeLoop p2 (window.drop w) rest

/-- Modelled from the spec: the capability bundle of the signature protocol
(spec.md §4.4, §6; `eddsa.rs` is not under `src/`).  `G` is the curve
generator inside the prime-order subgroup (an element of an additive group
`P`); `skBytes`, `msgBytes` and `digestFn` are the byte serialisation and the
key-derivation digest (external collaborators); `challengeFn` is the composite
sponge transcript: absorb `(R.x, R.y, A.x, A.y, message)`, squeeze, re-encode
into the scalar field `ZMod n`. -/
structure SigScheme (P M : Type) (n : ℕ) where
  G : P
  skBytes : ZMod n → List ℕ
  msgBytes : M → List ℕ
  digestFn : List ℕ → List ℕ
  challengeFn : P → P → M → ZMod n

/-- Modelled from the spec: the deterministic nonce of step 1 of `sign`
(spec.md §4.4): `r = reduce_mod_n(digest(sk.bytes ++ message.bytes))`, the
reduction being the in-source `from_digest`. -/
def nonce {P M : Type} {n : ℕ} (C : SigScheme P M n) (sk : ZMod n) (msg : M) :
    ZMod n :=
  (from_digest n (C.digestFn (C.skBytes sk ++ C.msgBytes msg)) : ℕ)

/-- Modelled from the spec: `public_key(sk) = sk · G` (spec.md §4.2;
`eddsa.rs` is not under `src/`). -/
def public_key {P M : Type} [AddCommGroup P] {n : ℕ} (C : SigScheme P M n)
    (sk : ZMod n) : P :=
  sk.val • C.G

/-- Modelled from the spec: `sign` (spec.md §4.4; `eddsa.rs` is not under
`src/`).  The `rng : Rng` argument models the ambient per-call randomness a
run could consult; per the spec the nonce is derived deterministically from
the digest, so it is never used. -/
def sign {P M Rng : Type} [AddCommGroup P] {n : ℕ} (C : SigScheme P M n)
    (rng : Rng) (sk : ZMod n) (msg : M) : P × ZMod n :=
  let r := nonce C sk msg
  let R := r.val • C.G
  let A := public_key C sk
  let c := C.challengeFn R A msg
  (R, r + c * sk)

/-- Modelled from the spec: `verify` (spec.md §4.4; `eddsa.rs` is not under
`src/`): recompute `c` from `sig.R` and `pk`, check `S·G == R + c·A`, return
`ok ()` on match and `Error::Verify` otherwise. -/
def verify {P M : Type} [AddCommGroup P] [DecidableEq P] {n : ℕ}
    (C : SigScheme P M n) (A : P) (msg : M) (sig : P × ZMod n) :
    Except Error Unit :=
  if sig.2.val • C.G = sig.1 + (C.challengeFn sig.1 A msg).val • A then
    Except.ok ()
  else
    Except.error Error.Verify

/-- The modulus of `ark_ed_on_bn254::Fr`, the scalar field (prime subgroup
order) of the Baby Jubjub curve used by the crate's test; 251 bits. -/
def edOnBn254ScalarOrder : ℕ :=
  2736030358979909402780800718157159386076813972158567259200215660948447373041

/-- A concrete scheme instance over the additive group `ZMod 5` with
generator `1`, used to instantiate hypotheses of the protocol theorems. -/
def Cg : SigScheme (ZMod 5) ℕ 5 where
  G := 1
  skBytes := fun s => [s.val]
  msgBytes := fun m => [m]
  digestFn := id
  challengeFn := fun R A m => R + A + (m : ZMod 5)

/-- A concrete scheme instance with scalar field `ZMod 7` over a trivial
carrier, used to instantiate hypotheses of the derivation theorems. -/
def Cw : SigScheme ℕ ℕ 7 where
  G := 0
  skBytes := fun s => [s.val]
  msgBytes := fun m => [m]
  digestFn := id
  challengeFn := fun _ _ _ => 0

end ZkKit

namespace ZkKit

theorem num_bits_eq_of_ne_none {B : ℕ} {sz : FieldElementSize}
    (h : num_bits B sz ≠ none) : num_bits B sz = some (B - 1) := by
  cases sz with
  | Full => rfl
  | Truncated k =>
      by_cases hk : k > B
      · simp [num_bits, hk] at h
      · simp [num_bits, hk]

theorem totalBits_some {B : ℕ} :
    ∀ (sizes : List FieldElementSize), (∀ sz ∈ sizes, num_bits B sz ≠ none) →
      ∃ t, totalBits B sizes = some t := by
  intro sizes
  induction sizes with
  | nil => exact fun _ => ⟨0, rfl⟩
  | cons sz rest ih =>
      intro h
      obtain ⟨t, ht⟩ := ih fun s hs => h s (List.mem_cons_of_mem _ hs)
      refine ⟨t + (B - 1), ?_⟩
      simp [totalBits, num_bits_eq_of_ne_none (h sz (List.mem_cons_self _ _)), ht]

theorem bitsLE_length (L x : ℕ) : (bitsLE L x).length = L := by
  simp [bitsLE]

theorem nonNativeLoop_cons (B p2 : ℕ) (sz : FieldElementSize)
    (rest : List FieldElementSize) (window : List Bool) :
    nonNativeLoop B p2 (sz :: rest) window =
      match num_bits B sz with
      | none => none
      | some nb =>
        if nb + 2 ≤ window.length then
          match nonNativeLoop B p2 rest (window.drop nb) with
          | none => none
          | some out =>
              some ((natOfBytesLE (bitsToBytesLE (window.take (nb + 2))) % p2) :: out)
        else none := rfl

theorem nonNativeLoop_some (B p2 : ℕ) :
    ∀ (sizes : List FieldElementSize) (window : List Bool),
      (∀ sz ∈ sizes, num_bits B sz ≠ none) →
      (sizes = [] ∨ sizes.length * (B - 1) + 2 ≤ window.length) →
      ∃ out, nonNativeLoop B p2 sizes window = some out ∧ out.length = sizes.length := by
  intro sizes
  induction sizes with
  | nil => exact fun window _ _ => ⟨[], rfl, rfl⟩
  | cons sz rest ih =>
      intro window hval hlen
      rcases hlen with h | hlen
      · exact absurd h (by simp)
      have hsz := num_bits_eq_of_ne_none (hval sz (List.mem_cons_self _ _))
      have hexp : (sz :: rest).length * (B - 1) = rest.length * (B - 1) + (B - 1) := by
        rw [List.length_cons, Nat.succ_mul]
      have hB2 : B - 1 + 2 ≤ window.length := by omega
      have hrest : rest = [] ∨ rest.length * (B - 1) + 2 ≤ (window.drop (B - 1)).length := by
        rcases rest with _ | ⟨a, l⟩
        · exact Or.inl rfl
        · right
          rw [List.length_drop]
          omega
      obtain ⟨out, hout, hlenout⟩ :=
        ih (window.drop (B - 1)) (fun s hs => hval s (List.mem_cons_of_mem _ hs)) hrest
      have heq : nonNativeLoop B p2 (sz :: rest) window =
          some ((natOfBytesLE (bitsToBytesLE (window.take (B - 1 + 2))) % p2) :: out) := by
        rw [nonNativeLoop_cons, hsz]
        dsimp only
        rw [if_pos hB2, hout]
      exact ⟨_, heq, by simp [hlenout]⟩

theorem nonNativeLoop_none (B p2 : ℕ) :
    ∀ (sizes : List FieldElementSize) (window : List Bool),
      (∀ sz ∈ sizes, num_bits B sz ≠ none) → sizes ≠ [] →
      window.length < sizes.length * (B - 1) + 2 →
      nonNativeLoop B p2 sizes window = none := by
  intro sizes
  induction sizes with
  | nil => exact fun window _ h _ => absurd rfl h
  | cons sz rest ih =>
      intro window hval _ hlen
      have hsz := num_bits_eq_of_ne_none (hval sz (List.mem_cons_self _ _))
      have hexp : (sz :: rest).length * (B - 1) = rest.length * (B - 1) + (B - 1) := by
        rw [List.length_cons, Nat.succ_mul]
      rw [nonNativeLoop_cons, hsz]
      dsimp only
      by_cases hB2 : B - 1 + 2 ≤ window.length
      · rw [if_pos hB2]
        have hrestne : rest ≠ [] := by
          rintro rfl
          simp only [List.length_cons, List.length_nil] at hlen
          omega
        have hlt : (window.drop (B - 1)).length < rest.length * (B - 1) + 2 := by
          rw [List.length_drop]
          omega
        rw [ih (window.drop (B - 1)) (fun s hs => hval s (List.mem_cons_of_mem _ hs))
          hrestne hlt]
      · rw [if_neg hB2]

theorem non_native_snd {S : Type} (s : S) (L x B p2 : ℕ)
    (sizes : List FieldElementSize) (h0 : ¬ sizes.length = 0) {t : ℕ}
    (ht : totalBits B sizes = some t) :
    (non_native s L x B p2 sizes).2 = nonNativeLoop B p2 sizes (bitsLE L x) := by
  simp only [non_native]
  rw [if_neg h0, ht]

end ZkKit

namespace ZkKit

theorem nsmul_mod {P : Type} [AddCommGroup P] {n : ℕ} (x : P) (hx : n • x = 0)
    (m : ℕ) : (m % n) • x = m • x := by
  conv_rhs => rw [← Nat.div_add_mod m n]
  rw [add_nsmul, mul_comm n (m / n), mul_smul, hx, smul_zero, zero_add]

theorem natOfBytesLE_eq_sum (bs : List ℕ) :
    natOfBytesLE bs = ∑ i ∈ Finset.range bs.length, bs.getD i 0 * 256 ^ i := by
  induction bs with
  | nil => simp [natOfBytesLE]
  | cons b rest ih =>
      rw [show natOfBytesLE (b :: rest) = b + 256 * natOfBytesLE rest from rfl, ih,
        List.length_cons, Finset.sum_range_succ']
      simp only [List.getD_cons_succ, List.getD_cons_zero, pow_zero, mul_one,
        pow_succ, Finset.mul_sum]
      rw [add_comm b]
      exact congrArg (· + b) (Finset.sum_congr rfl fun i _ => by ring)

/-- Claim C1: round-trip correctness.  For every signing key `sk` and message
`msg`, `verify (public_key sk) cfg msg (sign sk cfg msg)` succeeds; the
produced signature satisfies `S·G == R + c·A` with `c` the recomputed
challenge and `A` the verifying key.  The hypothesis `n • G = 0` states that
the generator lies in the subgroup of order `n` (spec.md §3 invariants). -/
theorem sign_verify_roundtrip {P M Rng : Type} [AddCommGroup P] [DecidableEq P]
    {n : ℕ} [NeZero n] (C : SigScheme P M n) (hG : n • C.G = 0) (rng : Rng)
    (sk : ZMod n) (msg : M) :
    verify C (public_key C sk) msg (sign C rng sk msg) = Except.ok () := by
  have key : ∀ r c s : ZMod n,
      (r + c * s).val • C.G = r.val • C.G + c.val • s.val • C.G := by
    intro r c s
    rw [ZMod.val_add, nsmul_mod C.G hG, add_nsmul, ZMod.val_mul, nsmul_mod C.G hG,
      mul_smul]
  simp only [sign, verify, public_key]
  rw [if_pos (key _ _ _)]

/-- Witness for C1: the round trip succeeds on the concrete scheme `Cg` over
`ZMod 5` with `sk = 2`, `msg = 3`. -/
theorem sign_verify_roundtrip_witness :
    verify Cg (public_key Cg 2) 3 (sign Cg (0 : ℕ) 2 3) = Except.ok () :=
  sign_verify_roundtrip Cg (by decide) (0 : ℕ) 2 3

end ZkKit

namespace ZkKit

/-- Claim C2 (evidence of the code bug): with `F2 = GF(5)` (so
`MODULUS_BIT_SIZE = 3`), a 64-bit `F1` source element `x = 3` and a single
requested chunk of width 1, the re-encoder outputs `[3]`, and `3` is not
strictly below `2 ^ 1`: `num_bits` ignores the `Truncated` payload and always
consumes `MODULUS_BIT_SIZE - 1` (+2 margin) bits, so the output is not
governed by the requested width. -/
theorem non_native_ignores_requested_width :
    isBitSize 3 5 ∧
    (non_native () 64 3 3 5 [FieldElementSize.Truncated 1]).2 = some [3] ∧
    ¬ (3 : ℕ) < 2 ^ 1 := by decide

set_option maxRecDepth 40000 in
/-- Counterexample to claim C3 as stated: over the scalar field of
`ed_on_bn254` (modulus bit length 251, so requested widths of 250 satisfy the
spec's width precondition `width ≤ MODULUS_BIT_SIZE - 1`), requesting `k = 2`
chunks from a 256-bit source element panics on the second chunk's slice
(`250 + 252 > 256` bits) instead of returning 2 elements. -/
theorem non_native_two_chunks_panic :
    isBitSize 251 edOnBn254ScalarOrder ∧
    (∀ sz ∈ [FieldElementSize.Truncated 250, FieldElementSize.Truncated 250],
      num_bits 251 sz ≠ none) ∧
    (250 : ℕ) ≤ 251 - 1 ∧
    (non_native () 256 1 251 edOnBn254ScalarOrder
      [FieldElementSize.Truncated 250, FieldElementSize.Truncated 250]).2 = none := by
  decide

/-- Claim C3 (amended): when every requested width passes the width check and
additionally the source bit stream supplies at least
`k * (MODULUS_BIT_SIZE - 1) + 2` bits (or `k = 0`), `non_native` returns
exactly `k` elements; a request of zero chunks returns the empty sequence. -/
theorem non_native_length {S : Type} (s : S) (L x B p2 : ℕ)
    (sizes : List FieldElementSize)
    (hval : ∀ sz ∈ sizes, num_bits B sz ≠ none)
    (hbits : sizes = [] ∨ sizes.length * (B - 1) + 2 ≤ L) :
    ∃ out, (non_native s L x B p2 sizes).2 = some out ∧
      out.length = sizes.length := by
  by_cases hn : sizes = []
  · subst hn
    exact ⟨[], by simp [non_native], rfl⟩
  · have h0 : ¬ sizes.length = 0 := fun h => hn (List.length_eq_zero.mp h)
    obtain ⟨t, ht⟩ := totalBits_some sizes hval
    rw [non_native_snd s L x B p2 sizes h0 ht]
    rcases hbits with h | hbits
    · exact absurd h hn
    · exact nonNativeLoop_some B p2 sizes (bitsLE L x) hval
        (Or.inr (by rw [bitsLE_length]; exact hbits))

/-- Witness for C3 (amended): one valid chunk over `GF(5)` from a 64-bit
element yields exactly one output element. -/
theorem non_native_length_witness :
    ∃ out, (non_native () 64 7 3 5 [FieldElementSize.Truncated 1]).2 = some out ∧
      out.length = [FieldElementSize.Truncated 1].length :=
  non_native_length () 64 7 3 5 [FieldElementSize.Truncated 1] (by decide)
    (Or.inr (by decide))

/-- Claim C4 (evidence of the code bug): with two requested chunks of width 1
over `F2 = GF(5)` and source element `x = 4`, the code reads the second chunk
at offset `MODULUS_BIT_SIZE - 1 = 2` (output `[4, 1]`), while reading at the
offset equal to the sum of the preceding requested widths with the requested
span, as the claim states, yields `[4, 2]`. -/
theorem non_native_chunk_offset_divergence :
    isBitSize 3 5 ∧
    (non_native () 64 4 3 5
      [FieldElementSize.Truncated 1, FieldElementSize.Truncated 1]).2 = some [4, 1] ∧
    specReencodeLoop 5 (bitsLE 64 4) [1, 1] = [4, 2] ∧
    ([4, 1] : List ℕ) ≠ [4, 2] := by decide

/-- Counterexample to claim C5 as stated: over `F2 = GF(5)`
(`MODULUS_BIT_SIZE = 3`), the requested width 3 exceeds the modulus bit
length minus 1, yet `num_bits` does not panic and the whole re-encoder call
completes. -/
theorem num_bits_accepts_bitlength_width :
    isBitSize 3 5 ∧ (3 : ℕ) > 3 - 1 ∧
    num_bits 3 (FieldElementSize.Truncated 3) = some 2 ∧
    (non_native () 64 3 3 5 [FieldElementSize.Truncated 3]).2 ≠ none := by decide

/-- Claim C5 (amended): the width check of the re-encoder (`num_bits`) panics
if and only if the requested `Truncated` width exceeds `F2`'s modulus
bit-length `MODULUS_BIT_SIZE` itself (not the bit-length minus 1); every
width up to the bit-length passes the check without panic.  (Independently of
the width check, the re-encoder can still panic on bit-stream exhaustion, see
C9.) -/
theorem num_bits_none_iff (B : ℕ) (sz : FieldElementSize) :
    num_bits B sz = none ↔ ∃ k, sz = FieldElementSize.Truncated k ∧ B < k := by
  cases sz with
  | Full => simp [num_bits]
  | Truncated k => by_cases h : k > B <;> simp [num_bits, h]

/-- Claim C6: determinism.  `sign` with identical inputs returns identical
`(R, S)` whatever ambient per-call randomness `r1`, `r2` the two runs carry,
and the in-repo component `non_native` returns identical output whatever
sponge state it is handed (its only in-repo stateful argument). `from_digest`
and `non_native` are pure Lean functions of their inputs by construction. -/
theorem sign_and_reencode_deterministic {P M Rng S : Type} [AddCommGroup P]
    {n : ℕ} (C : SigScheme P M n) (r1 r2 : Rng) (sk : ZMod n) (msg : M)
    (s1 s2 : S) (L x B p2 : ℕ) (sizes : List FieldElementSize) :
    sign C r1 sk msg = sign C r2 sk msg ∧
    (non_native s1 L x B p2 sizes).2 = (non_native s2 L x B p2 sizes).2 :=
  ⟨rfl, rfl⟩

/-- Claim C7: `from_digest` interprets the digest bytes little-endian
(byte `i` weighs `256 ^ i`) and reduces modulo the field modulus; the nonce
of the signing model is `reduce_mod_n` of `digest(sk.bytes ++ msg.bytes)`,
with canonical value below `n`. -/
theorem from_digest_le_mod_order (PT MT : Type) (n : ℕ) (hn : 0 < n)
    (C : SigScheme PT MT n) (sk : ZMod n) (msg : MT) (bytes : List ℕ) :
    from_digest n bytes =
      (∑ i ∈ Finset.range bytes.length, bytes.getD i 0 * 256 ^ i) % n ∧
    (nonce C sk msg).val =
      natOfBytesLE (C.digestFn (C.skBytes sk ++ C.msgBytes msg)) % n := by
  haveI : NeZero n := ⟨hn.ne'⟩
  constructor
  · rw [from_digest, natOfBytesLE_eq_sum]
  · rw [nonce, ZMod.val_natCast, from_digest, Nat.mod_mod_of_dvd _ dvd_rfl]

/-- Witness for C7: concrete evaluation over `n = 7` with digest bytes
`[2, 1]` and the scheme `Cw`. -/
theorem from_digest_le_mod_order_witness :
    from_digest 7 [2, 1] =
      (∑ i ∈ Finset.range ([2, 1] : List ℕ).length,
        ([2, 1] : List ℕ).getD i 0 * 256 ^ i) % 7 ∧
    (nonce Cw 2 3).val =
      natOfBytesLE (Cw.digestFn (Cw.skBytes 2 ++ Cw.msgBytes 3)) % 7 :=
  from_digest_le_mod_order ℕ ℕ 7 (by decide) Cw 2 3 [2, 1]

/-- Claim C8: the public error surface is exactly the two variants `Verify`
and `BadDigestOutput`; `verify` is total on well-typed input, returning
`ok ()` exactly on an equality match of `S·G == R + c·A` and
`Error.Verify` on any mismatch. -/
theorem error_surface_verify_total {P M : Type} [AddCommGroup P]
    [DecidableEq P] {n : ℕ} (C : SigScheme P M n) (A : P) (msg : M) (R : P)
    (S : ZMod n) :
    (∀ e : Error, e = Error.Verify ∨ e = Error.BadDigestOutput) ∧
    (verify C A msg (R, S) = Except.ok () ∨
      verify C A msg (R, S) = Except.error Error.Verify) ∧
    (verify C A msg (R, S) = Except.ok () ↔
      S.val • C.G = R + (C.challengeFn R A msg).val • A) := by
  refine ⟨?_, ?_, ?_⟩
  · intro e
    cases e
    · exact Or.inl rfl
    · exact Or.inr rfl
  · by_cases h : S.val • C.G = R + (C.challengeFn R A msg).val • A
    · exact Or.inl (by simp [verify, h])
    · exact Or.inr (by simp [verify, h])
  · by_cases h : S.val • C.G = R + (C.challengeFn R A msg).val • A
    · simp [verify, h]
    · simp [verify, h]

/-- Claim C9: totality precondition of the re-encoder.  With `k ≥ 1`
requested chunks all passing the width check, `non_native` completes without
panic exactly when the big-integer bit stream of length `L` supplies at least
`(sum of the k consumed widths) + 2 = k * (MODULUS_BIT_SIZE - 1) + 2` bits
for the final chunk's slice; otherwise the slice indexing panics. -/
theorem non_native_panic_iff {S : Type} (s : S) (L x B p2 : ℕ)
    (sizes : List FieldElementSize) (hne : sizes ≠ [])
    (hval : ∀ sz ∈ sizes, num_bits B sz ≠ none) :
    (non_native s L x B p2 sizes).2 ≠ none ↔
      sizes.length * (B - 1) + 2 ≤ L := by
  have h0 : ¬ sizes.length = 0 := fun h => hne (List.length_eq_zero.mp h)
  obtain ⟨t, ht⟩ := totalBits_some sizes hval
  rw [non_native_snd s L x B p2 sizes h0 ht]
  constructor
  · intro h
    by_contra hcon
    push_neg at hcon
    exact h (nonNativeLoop_none B p2 sizes (bitsLE L x) hval hne
      (by rw [bitsLE_length]; omega))
  · intro h
    obtain ⟨out, hout, _⟩ := nonNativeLoop_some B p2 sizes (bitsLE L x) hval
      (Or.inr (by rw [bitsLE_length]; exact h))
    simp [hout]

/-- Witness for C9: one valid chunk over `GF(5)` from a 64-bit element — the
call succeeds precisely because `1 * 2 + 2 ≤ 64`. -/
theorem non_native_panic_iff_witness :
    ((non_native () 64 9 3 5 [FieldElementSize.Truncated 1]).2 ≠ none ↔
      [FieldElementSize.Truncated 1].length * (3 - 1) + 2 ≤ 64) :=
  non_native_panic_iff () 64 9 3 5 [FieldElementSize.Truncated 1] (by decide)
    (by decide)

/-- Claim C10: noninterference with the sponge.  `non_native` neither reads
nor mutates its sponge argument: its output agrees for any two sponge states
and each sponge is returned unchanged; the output depends only on the source
element and the width list. -/
theorem non_native_sponge_noninterference {S : Type} (s1 s2 : S)
    (L x B p2 : ℕ) (sizes : List FieldElementSize) :
    (non_native s1 L x B p2 sizes).2 = (non_native s2 L x B p2 sizes).2 ∧
    (non_native s1 L x B p2 sizes).1 = s1 ∧
    (non_native s2 L x B p2 sizes).1 = s2 :=
  ⟨rfl, rfl, rfl⟩

end ZkKit
